import Mathlib

/-!
# Verification of the unstorage mount-routing storage engine

Shallow embedding of the key utilities (`src/utils.ts`), the storage engine
(`src/storage.ts`), the memory driver (`src/drivers/memory.ts`), the overlay
driver (`src/drivers/overlay.ts`), the filesystem driver's key resolution
(`src/drivers/fs.ts`) and the HTTP GET handler (`src/server.ts`).

Strings manipulated by the JavaScript code are modelled through their
character lists (`String.data`); all definitions are executable.
-/

set_option maxRecDepth 4096
set_option linter.unusedVariables false

/-! ## Character-list primitives modelling JS string operations -/

/-- `pre` is a prefix of `s`, character by character; models `s.startsWith(pre)`
after lifting both strings to their character lists. -/
def isPrefixOfCL : List Char → List Char → Bool
  | [], _ => true
  | _ :: _, [] => false
  | a :: as, b :: bs => a == b && isPrefixOfCL as bs

/-- `pat` occurs as a contiguous substring of `s` (used to model regex
substring matches such as `/\.\.:/`). -/
def containsSub (pat : List Char) : List Char → Bool
  | [] => isPrefixOfCL pat []
  | s@(_ :: rest) => isPrefixOfCL pat s || containsSub pat rest

/-- `s` ends with `suf` (models a `$`-anchored regex match). -/
def endsWithCL (suf s : List Char) : Bool :=
  isPrefixOfCL suf.reverse s.reverse

/-- Number of `':'` characters in a key; models the `indexOf` counting loop of
`filterKeyByDepth` in `src/utils.ts`. -/
def colonCount : List Char → Nat
  | [] => 0
  | c :: rest => (if c = ':' then 1 else 0) + colonCount rest

/-- Characters before the first `'?'`; models `key.split("?")[0]`. -/
def takeBeforeQuery : List Char → List Char
  | [] => []
  | c :: rest => if c = '?' then [] else c :: takeBeforeQuery rest

/-- One separator character: `'/'` and `'\'` become `':'`; models the
`replace(/[/\\]/g, ":")` step of `normalizeKey` (`src/utils.ts`, documented
there as `a/b\c => a:b:c`). -/
def coerceSep (c : Char) : Char :=
  if c = '/' ∨ c = '\\' then ':' else c

/-- Apply `coerceSep` to the whole key. -/
def coerceSeps (l : List Char) : List Char :=
  l.map coerceSep

/-- Collapse runs of `':'` into a single `':'`; models `replace(/:+/g, ":")`. -/
def collapseColons : List Char → List Char
  | [] => []
  | [c] => [c]
  | a :: b :: rest =>
    if a = ':' ∧ b = ':' then collapseColons (b :: rest)
    else a :: collapseColons (b :: rest)

/-- Remove one leading `':'` if present. -/
def dropLeadingColon (l : List Char) : List Char :=
  match l with
  | [] => []
  | c :: rest => if c = ':' then rest else c :: rest

/-- Remove one trailing `':'` if present. -/
def dropTrailingColon (l : List Char) : List Char :=
  (dropLeadingColon l.reverse).reverse

/-- Models `replace(/^:|:$/g, "")`: the regex removes at most one leading and
one trailing colon. -/
def stripEdgeColons (l : List Char) : List Char :=
  dropTrailingColon (dropLeadingColon l)

/-- The `normalizeKey` pipeline of `src/utils.ts` on character lists:
query-strip, separator coercion, colon-run collapse, edge trim.  The
JavaScript falsy guards (`if (!key) return ""` and the final `|| ""`) both
yield the empty string, which is the value this pipeline produces on `[]`. -/
def normChars (l : List Char) : List Char :=
  stripEdgeColons (collapseColons (coerceSeps (takeBeforeQuery l)))

/-! ## Key utilities (`src/utils.ts`) -/

/-- `normalizeKey` of `src/utils.ts`. -/
def normalizeKey (s : String) : String :=
  String.mk (normChars s.data)

/-- `joinKeys(...keys)` of `src/utils.ts`: join with `':'` then normalize. -/
def joinKeys (keys : List String) : String :=
  normalizeKey (String.intercalate ":" keys)

/-- `normalizeBaseKey` of `src/utils.ts`: normalize and append a trailing
`':'` when non-empty. -/
def normalizeBaseKey (base : String) : String :=
  let b := normalizeKey base
  if b = "" then "" else b ++ ":"

/-- Models JS `key.startsWith(base)`. -/
def jsStartsWith (key base : String) : Bool :=
  isPrefixOfCL base.data key.data

/-- Models JS `key.slice(n)` for a non-negative index. -/
def jsSliceFrom (s : String) (n : Nat) : String :=
  String.mk (s.data.drop n)

/-- `filterKeyByDepth(key, depth)` exactly as defined in `src/utils.ts`
(two parameters): keep the key iff `depth` is `undefined` or the number of
colons in the key is at most `depth`. -/
def filterKeyByDepth (key : String) (depth : Option Nat) : Bool :=
  match depth with
  | none => true
  | some d => colonCount key.data ≤ d

/-- The depth filter as it is actually invoked by `getKeys` in
`src/storage.ts` line 552: the call site passes THREE arguments
`filterKeyByDepth(key, base, opts.maxDepth)` to the two-parameter function,
so the `depth` parameter receives the (string) `base` and `maxDepth` is
discarded.  JavaScript then evaluates `substrCount <= base` by coercing
`base` with `ToNumber`: the empty base gives `0`, and every non-empty
`normalizeBaseKey` output contains a `':'` so it gives `NaN`, for which the
comparison is `false`. -/
def filterKeyByDepthAsCalled (key base : String) : Bool :=
  if base = "" then colonCount key.data ≤ 0 else false

/-- `filterKeyByBase` of `src/utils.ts`; `key[key.length-1] !== "$"` is
`getLast? ≠ some '$'` (on the empty string the JS index read is `undefined`,
which is `!== "$"`). -/
def filterKeyByBase (key base : String) : Bool :=
  if base ≠ "" then
    jsStartsWith key base && !(key.data.getLast? == some '$')
  else
    !(key.data.getLast? == some '$')

/-! ## The memory driver's store (`src/drivers/memory.ts`)

The driver keeps a `Map<string, any>`; we model it as an association list in
insertion order, with `Map.prototype.set` updating in place when the key is
already present and appending otherwise. -/

structure Store where
  data : List (String × String)
deriving DecidableEq, Repr

def emptyStore : Store := ⟨[]⟩

/-- `data.get(key) ?? null`. -/
def storeGet (st : Store) (k : String) : Option String :=
  (st.data.find? (fun p => p.1 == k)).map (·.2)

/-- `Map.prototype.set`: update in place, or append. -/
def storeSet (st : Store) (k v : String) : Store :=
  if st.data.any (fun p => p.1 == k) then
    ⟨st.data.map (fun p => if p.1 == k then (k, v) else p)⟩
  else
    ⟨st.data ++ [(k, v)]⟩

/-- `[...data.keys()]` in insertion order. -/
def storeKeys (st : Store) : List String :=
  st.data.map (·.1)

/-- `[...new Set(list)]`: deduplicate keeping the first occurrence. -/
def dedupeKeepFirst (l : List String) : List String :=
  go [] l
where
  go (seen : List String) : List String → List String
    | [] => []
    | x :: rest => if x ∈ seen then go seen rest else x :: go (x :: seen) rest

/-! ## Overlay driver (`src/drivers/overlay.ts`)

Each layer is a memory-style store; `layers[0]` is the top layer. -/

/-- The tombstone sentinel `OVERLAY_REMOVED`. -/
def OVERLAY_REMOVED : String := "__OVERLAY_REMOVED__"

/-- `getItem`: walk the layers in order; a tombstone stops with `null`, a
non-null value is returned, `null` falls through to the next layer. -/
def overlayGetItem (layers : List Store) (key : String) : Option String :=
  match layers with
  | [] => none
  | l :: rest =>
    match storeGet l key with
    | some v => if v = OVERLAY_REMOVED then none else some v
    | none => overlayGetItem rest key

/-- `setItem`: `options.layers[0]?.setItem?.(key, value, opts)` — write the
value to the top layer only, no validation of the value. -/
def overlaySetItem (layers : List Store) (key value : String) : List Store :=
  match layers with
  | [] => []
  | top :: rest => storeSet top key value :: rest

/-- `removeItem`: `options.layers[0]?.setItem?.(key, OVERLAY_REMOVED, opts)` —
write the tombstone to the top layer only. -/
def overlayRemoveItem (layers : List Store) (key : String) : List Store :=
  match layers with
  | [] => []
  | top :: rest => storeSet top key OVERLAY_REMOVED :: rest

/-- `normalizeKey` from `src/drivers/utils/index.ts` (the drivers' own
variant, used by the overlay driver's `getKeys`): replace every `':' '/' '\'`
by the separator `':'`, then strip one leading and one trailing separator. -/
def normalizeKeyDriver (s : String) : String :=
  String.mk (stripEdgeColons (s.data.map (fun c =>
    if c = ':' ∨ c = '/' ∨ c = '\\' then ':' else c)))

/-- `getKeys`: list every layer, normalize, deduplicate, then drop a
candidate whose top-layer value is the tombstone.  The trailing
`.filter(Boolean)` also drops the empty-string key. -/
def overlayGetKeys (layers : List Store) (base : String) : List String :=
  let uniqueKeys :=
    dedupeKeepFirst ((layers.map (fun l => (storeKeys l).map normalizeKeyDriver)).flatten)
  uniqueKeys.filter (fun key =>
    (match layers.head? with
     | some top => !(storeGet top key == some OVERLAY_REMOVED)
     | none => true)
    && !(key == ""))

/-! ## Filesystem driver key resolution (`src/drivers/fs.ts`)

`const PATH_TRAVERSE_RE = /\.\.:|\.\.$/` and the resolver `r`, which throws a
`createError` (InvalidKey) before touching the filesystem when the regex
matches, and otherwise joins `base` with the key after replacing `':'` by
`'/'`.  We model `r` up to the surrounding `join(base, ·)`: `none` is the
thrown error, `some p` the mount-relative path handed to `join`. -/

/-- `PATH_TRAVERSE_RE.test(key)`: the key contains `"..:"` or ends in `".."`. -/
def pathTraverseTest (key : String) : Bool :=
  containsSub "..:".data key.data || endsWithCL "..".data key.data

/-- The fs driver's `r` (key → relative path), with `none` modelling the
InvalidKey error thrown before any file access. -/
def fsResolveRel (key : String) : Option String :=
  if pathTraverseTest key then none
  else some (String.mk (key.data.map (fun c => if c = ':' then '/' else c)))

/-! ## Storage engine (`src/storage.ts`)

The context keeps `mounts : Record<string, Driver>` and the parallel array
`mountpoints : string[]` sorted by descending base length; since bases are
unique we carry both as a single association list in `mountpoints` order,
every driver being a memory store. -/

/-- The result of `getMount`. -/
structure MountInfo where
  base : String
  relativeKey : String
  driver : Store
deriving DecidableEq, Repr

/-- `getMount(key)`: linear scan of the mount list for the first base that is
a prefix of the key; the fallback branch returns the root mount. -/
def getMountE (s : List (String × Store)) (key : String) : MountInfo :=
  match s.find? (fun m => jsStartsWith key m.1) with
  | some m => ⟨m.1, jsSliceFrom key m.1.data.length, m.2⟩
  | none => ⟨"", key, ((s.find? (fun m => m.1 == "")).map (·.2)).getD emptyStore⟩

/-- Stable insertion used to model `Array.prototype.sort` (a stable sort
since ES2019) with the comparator `(a, b) => b.length - a.length`. -/
def insertByLen (x : String × Store) : List (String × Store) → List (String × Store)
  | [] => [x]
  | y :: ys =>
    if y.1.data.length ≤ x.1.data.length then x :: y :: ys
    else y :: insertByLen x ys

/-- Stable sort by descending base length, modelling
`mountpoints.sort((a, b) => b.length - a.length)`. -/
def jsSortDesc : List (String × Store) → List (String × Store)
  | [] => []
  | x :: xs => insertByLen x (jsSortDesc xs)

/-- `mount(base, driver)` on its success path (the code throws when the
normalized base is `""` or already mounted; those guards are side conditions
of the `ReachableE.mount` step below): record the driver, push the base and
re-sort by descending length. -/
def mountE (s : List (String × Store)) (base : String) (d : Store) : List (String × Store) :=
  jsSortDesc (s ++ [(normalizeBaseKey base, d)])

/-- `unmount(base)` for a non-root base: drop the entry (a no-op when the
base is absent, matching the early return). -/
def unmountE (s : List (String × Store)) (base : String) : List (String × Store) :=
  s.eraseP (fun m => m.1 == normalizeBaseKey base)

/-- Replace the store recorded for `base` (the mount table itself is not
reordered by item operations). -/
def assocUpdate (s : List (String × Store)) (base : String) (f : Store → Store) :
    List (String × Store) :=
  s.map (fun m => if m.1 == base then (m.1, f m.2) else m)

/-- `setItem(key, value)`: normalize, route, and (the memory driver offering
`setItemRaw`) store the value untouched under the relative key. -/
def setItemE (s : List (String × Store)) (key value : String) : List (String × Store) :=
  assocUpdate s (getMountE s (normalizeKey key)).base
    (fun st => storeSet st (getMountE s (normalizeKey key)).relativeKey value)

/-- `getItem(key)` down to the memory driver's read (`data.get(key) ?? null`);
the engine feeds this value to the external `destr` parser, which is outside
the store model. -/
def getItemE (s : List (String × Store)) (key : String) : Option String :=
  storeGet (getMountE s (normalizeKey key)).driver
    (getMountE s (normalizeKey key)).relativeKey

/-- `getKeys(base, opts)` of `src/storage.ts`: normalize the base, take the
descendant mounts (`getMounts` without parents), list each driver (the memory
driver ignores its arguments), prepend the mountpoint with `joinKeys`, filter
with the *three-argument call* `filterKeyByDepth(key, base, opts.maxDepth)`
(see `filterKeyByDepthAsCalled`: the base string lands in the `depth`
parameter and `maxDepth` is dropped), then merge, deduplicate and apply
`filterKeyByBase`.  The unused `maxDepth` parameter is retained to mirror the
engine's signature. -/
def getKeysE (s : List (String × Store)) (base : String) (_maxDepth : Option Nat) :
    List String :=
  let b := normalizeBaseKey base
  let mountsForBase := s.filter (fun m => jsStartsWith m.1 b)
  let perMount := mountsForBase.map (fun m =>
    ((storeKeys m.2).map (fun key => joinKeys [m.1, key])).filter
      (fun key => filterKeyByDepthAsCalled key b))
  (dedupeKeepFirst perMount.flatten).filter (fun key => filterKeyByBase key b)

/-- Mount tables reachable through the engine API: creation with a root
driver, `mount` (whose validation requires a fresh, non-empty normalized
base), `unmount` (root forbidden) and `setItem`. -/
inductive ReachableE : List (String × Store) → Prop
  | init (d : Store) : ReachableE [("", d)]
  | mount {s} (base : String) (d : Store) : ReachableE s →
      normalizeBaseKey base ≠ "" →
      normalizeBaseKey base ∉ s.map Prod.fst →
      ReachableE (mountE s base d)
  | unmount {s} (base : String) : ReachableE s →
      normalizeBaseKey base ≠ "" →
      ReachableE (unmountE s base)
  | set {s} (key value : String) : ReachableE s →
      ReachableE (setItemE s key value)

/-- Descending-length order on mount entries. -/
def MountDesc (a b : String × Store) : Prop :=
  b.1.data.length ≤ a.1.data.length

/-- The mount-table invariant: sorted by descending base length and bases
unique. -/
def MountInv (s : List (String × Store)) : Prop :=
  List.Pairwise MountDesc s ∧ (s.map Prod.fst).Nodup

/-! ## Watch dispatch (`src/storage.ts`)

`startWatch` registers `onChange` itself as each driver's callback (the
`watch` helper at the bottom of `src/storage.ts` receives the mount `base`
but does not use it).  `onChange(event, key)` normalizes the reported key and
calls every registered listener with it.  Listeners are identified by
numbers; the result is the list of deliveries `(listener, event, key)`. -/

inductive WatchEvent where
  | update
  | remove
deriving DecidableEq, Repr

/-- `onChange`: ignore when not watching, else notify every listener once
with the normalized key. -/
def onChangeDispatch (watching : Bool) (listeners : List Nat)
    (event : WatchEvent) (key : String) : List (Nat × WatchEvent × String) :=
  if watching then listeners.map (fun l => (l, event, normalizeKey key)) else []

/-- A driver mounted at `base` reporting `(event, relativeKey)`: the `watch`
helper passes `onChange` through unchanged, so the mount base never reaches
the dispatched key. -/
def driverReportDispatch (_base : String) (watching : Bool) (listeners : List Nat)
    (event : WatchEvent) (relativeKey : String) : List (Nat × WatchEvent × String) :=
  onChangeDispatch watching listeners event relativeKey

/-! ## HTTP GET on a leaf key (`src/server.ts`) -/

/-- The metadata consumed by `setMetaHeaders`; `mtime` is a `Date` (modelled
by its epoch value — `Date` objects are always JS-truthy, so presence is the
guard), `ttl` a number (for which `0` is falsy: the code treats a zero ttl
like an absent one). -/
structure StorageMetaR where
  mtime : Option Nat
  ttl : Option Nat
deriving DecidableEq, Repr

/-- The three headers `setMetaHeaders` may set. -/
structure RespHeaders where
  lastModified : Option Nat
  xttl : Option String
  cacheControl : Option String
deriving DecidableEq, Repr

/-- `setMetaHeaders(event, meta)` from `src/server.ts`. -/
def setMetaHeaders (meta : StorageMetaR) : RespHeaders :=
  { lastModified := meta.mtime
    xttl :=
      match meta.ttl with
      | some t => if t = 0 then none else some (toString t)
      | none => none
    cacheControl :=
      match meta.ttl with
      | some t => if t = 0 then none else some ("max-age=" ++ toString t)
      | none => none }

/-- A GET response body: raw bytes (`Accept: application/octet-stream`) or
stringified text. -/
inductive RespBody (α : Type) where
  | raw (v : α)
  | text (s : String)
deriving DecidableEq, Repr

/-- Result of the GET branch for a leaf key: the 404 `createError`, or a 200
with body and meta headers. -/
inductive GetLeafResult (α : Type) where
  | notFound
  | ok (body : RespBody α) (headers : RespHeaders)
deriving DecidableEq, Repr

/-- The leaf branch of the GET handler in `createH3StorageHandler`
(`src/server.ts` lines 147–173): read the value (raw or parsed according to
the Accept header), 404 when it is null, otherwise set the meta headers and
return the raw value or its stringification.  `stringifyF` stands for
`stringify` from `src/_utils.ts` (not part of the snapshot); the claim does
not depend on its internals. -/
def handleGetLeaf {α : Type} (stringifyF : α → String) (isRaw : Bool)
    (value : Option α) (meta : StorageMetaR) : GetLeafResult α :=
  match value with
  | none => GetLeafResult.notFound
  | some v =>
    GetLeafResult.ok
      (if isRaw then RespBody.raw v else RespBody.text (stringifyF v))
      (setMetaHeaders meta)

/-! ## Concrete states used by the code-bug and counterexample theorems -/

/-- Root memory driver holding exactly `a`, `a:b`, `a:b:c`, `a:b:c:d`, each
written through the engine's `setItem`. -/
def c3State : List (String × Store) :=
  setItemE (setItemE (setItemE (setItemE [("", emptyStore)] "a" "1") "a:b" "1")
    "a:b:c" "1") "a:b:c:d" "1"

/-- A storage with a driver mounted at `"a:b:"` already holding the value
`"v"` under its relative key `"c"` (so the full key `"a:b:c"` is populated). -/
def c10State : List (String × Store) :=
  mountE [("", emptyStore)] "a:b" (storeSet emptyStore "c" "v")

/-! ## Auxiliary predicates used by the theorems -/

/-- No two adjacent colons. -/
abbrev noTwoColons (a b : Char) : Prop := ¬(a = ':' ∧ b = ':')

/-- A character list that the `normalizeKey` pipeline leaves unchanged:
no query marker, no slash separators, no colon runs, no edge colons. -/
def CleanKey (l : List Char) : Prop :=
  '?' ∉ l ∧ (∀ x ∈ l, x ≠ '/' ∧ x ≠ '\\') ∧ List.Chain' noTwoColons l
    ∧ l.head? ≠ some ':' ∧ l.getLast? ≠ some ':'

/-! # Theorems -/

/-! ## Lemmas about the normalization pipeline -/

theorem takeBeforeQuery_no_q (l : List Char) : '?' ∉ takeBeforeQuery l := by
  induction l with
  | nil => simp [takeBeforeQuery]
  | cons c rest ih =>
    by_cases h : c = '?'
    · simp [takeBeforeQuery, h]
    · simp only [takeBeforeQuery, if_neg h, List.mem_cons]
      rintro (h1 | h1)
      · exact h h1.symm
      · exact ih h1

theorem takeBeforeQuery_of_no_q (l : List Char) (h : '?' ∉ l) :
    takeBeforeQuery l = l := by
  induction l with
  | nil => rfl
  | cons c rest ih =>
    have hc : ¬(c = '?') := fun e => h (by rw [e]; exact List.mem_cons_self '?' rest)
    simp only [takeBeforeQuery, if_neg hc]
    rw [ih (fun h1 => h (List.mem_cons_of_mem _ h1))]

theorem coerceSep_cases (c : Char) : coerceSep c = ':' ∨ coerceSep c = c := by
  unfold coerceSep
  split
  · exact Or.inl rfl
  · exact Or.inr rfl

theorem coerceSep_ne_slash (c : Char) : coerceSep c ≠ '/' ∧ coerceSep c ≠ '\\' := by
  unfold coerceSep
  split
  · exact ⟨by decide, by decide⟩
  · rename_i h
    push_neg at h
    exact h

theorem coerceSeps_no_slash (l : List Char) : ∀ x ∈ coerceSeps l, x ≠ '/' ∧ x ≠ '\\' := by
  intro x hx
  obtain ⟨c, _, rfl⟩ := List.mem_map.mp hx
  exact coerceSep_ne_slash c

theorem coerceSeps_no_q (l : List Char) (h : '?' ∉ l) : '?' ∉ coerceSeps l := by
  intro hq
  obtain ⟨c, hc, he⟩ := List.mem_map.mp hq
  rcases coerceSep_cases c with h1 | h1
  · exact absurd (h1.symm.trans he) (by decide)
  · exact h (by rw [h1.symm.trans he] at hc; exact hc)

theorem coerceSeps_of_clean (l : List Char) (h : ∀ x ∈ l, x ≠ '/' ∧ x ≠ '\\') :
    coerceSeps l = l := by
  induction l with
  | nil => rfl
  | cons c rest ih =>
    have hc := h c (List.mem_cons_self c rest)
    have hid : coerceSep c = c := by
      unfold coerceSep
      rw [if_neg]
      rintro (h1 | h1)
      · exact hc.1 h1
      · exact hc.2 h1
    simp only [coerceSeps, List.map_cons]
    rw [hid]
    have := ih (fun x hx => h x (List.mem_cons_of_mem _ hx))
    simpa [coerceSeps] using this

theorem mem_collapseColons : ∀ (l : List Char), ∀ x ∈ collapseColons l, x ∈ l
  | [] => by simp [collapseColons]
  | [c] => by simp [collapseColons]
  | a :: b :: rest => by
    intro x hx
    by_cases h : a = ':' ∧ b = ':'
    · simp only [collapseColons, if_pos h] at hx
      exact List.mem_cons_of_mem a (mem_collapseColons (b :: rest) x hx)
    · simp only [collapseColons, if_neg h] at hx
      rcases List.mem_cons.mp hx with h1 | h1
      · rw [h1]; exact List.mem_cons_self a _
      · exact List.mem_cons_of_mem a (mem_collapseColons (b :: rest) x h1)

theorem head?_collapseColons : ∀ (b : Char) (rest : List Char),
    (collapseColons (b :: rest)).head? = some b
  | b, [] => by simp [collapseColons]
  | b, c :: rest => by
    by_cases h : b = ':' ∧ c = ':'
    · simp only [collapseColons, if_pos h]
      rw [head?_collapseColons c rest, h.1, h.2]
    · simp only [collapseColons, if_neg h]
      rfl

theorem noDouble_collapseColons : ∀ (l : List Char),
    List.Chain' noTwoColons (collapseColons l)
  | [] => by simp [collapseColons]
  | [c] => by simp [collapseColons]
  | a :: b :: rest => by
    by_cases h : a = ':' ∧ b = ':'
    · simp only [collapseColons, if_pos h]
      exact noDouble_collapseColons (b :: rest)
    · simp only [collapseColons, if_neg h]
      rw [List.chain'_cons']
      refine ⟨?_, noDouble_collapseColons (b :: rest)⟩
      intro y hy
      rw [head?_collapseColons b rest, Option.mem_some_iff] at hy
      exact fun hc => h ⟨hc.1, by rw [← hy] at hc; exact hc.2⟩

theorem collapseColons_of_noDouble : ∀ (l : List Char),
    List.Chain' noTwoColons l → collapseColons l = l
  | [] => fun _ => rfl
  | [c] => fun _ => rfl
  | a :: b :: rest => fun h => by
    have hab : noTwoColons a b := (List.chain'_cons.mp h).1
    simp only [collapseColons, if_neg hab]
    rw [collapseColons_of_noDouble (b :: rest) (List.chain'_cons.mp h).2]

theorem mem_dropLeadingColon (l : List Char) : ∀ x ∈ dropLeadingColon l, x ∈ l := by
  intro x hx
  cases l with
  | nil => exact hx
  | cons c rest =>
    simp only [dropLeadingColon] at hx
    by_cases h : c = ':'
    · rw [if_pos h] at hx
      exact List.mem_cons_of_mem c hx
    · rw [if_neg h] at hx
      exact hx

theorem noDouble_dropLeadingColon (l : List Char) (h : List.Chain' noTwoColons l) :
    List.Chain' noTwoColons (dropLeadingColon l) := by
  cases l with
  | nil => exact h
  | cons c rest =>
    simp only [dropLeadingColon]
    by_cases hc : c = ':'
    · rw [if_pos hc]
      exact h.tail
    · rw [if_neg hc]
      exact h

theorem head?_dropLeadingColon (l : List Char) (h : List.Chain' noTwoColons l) :
    (dropLeadingColon l).head? ≠ some ':' := by
  cases l with
  | nil => simp [dropLeadingColon]
  | cons c rest =>
    simp only [dropLeadingColon]
    by_cases hc : c = ':'
    · rw [if_pos hc]
      cases rest with
      | nil => simp
      | cons d rest2 =>
        have hcd : noTwoColons c d := (List.chain'_cons.mp h).1
        simp only [List.head?_cons, ne_eq, Option.some.injEq]
        intro hd
        exact hcd ⟨hc, hd⟩
    · rw [if_neg hc]
      simp only [List.head?_cons, ne_eq, Option.some.injEq]
      exact hc

theorem dropLeadingColon_of_head (l : List Char) (h : l.head? ≠ some ':') :
    dropLeadingColon l = l := by
  cases l with
  | nil => rfl
  | cons c rest =>
    simp only [List.head?_cons, ne_eq, Option.some.injEq] at h
    simp only [dropLeadingColon, if_neg h]

theorem getLast?_dropLeadingColon (l : List Char) (h : l.getLast? ≠ some ':') :
    (dropLeadingColon l).getLast? ≠ some ':' := by
  cases l with
  | nil => simp [dropLeadingColon]
  | cons c rest =>
    simp only [dropLeadingColon]
    by_cases hc : c = ':'
    · rw [if_pos hc]
      cases rest with
      | nil => simp
      | cons d rest2 =>
        rw [List.getLast?_cons_cons] at h
        exact h
    · rw [if_neg hc]
      exact h

theorem noDouble_reverse (l : List Char) (h : List.Chain' noTwoColons l) :
    List.Chain' noTwoColons l.reverse := by
  rw [List.chain'_reverse]
  exact h.imp (fun a b hab h2 => hab ⟨h2.2, h2.1⟩)

theorem cleanKey_stripEdge (d : List Char) (hnd : List.Chain' noTwoColons d)
    (hq : '?' ∉ d) (hs : ∀ x ∈ d, x ≠ '/' ∧ x ≠ '\\') :
    CleanKey (stripEdgeColons d) := by
  have hnd_e : List.Chain' noTwoColons (dropLeadingColon d) :=
    noDouble_dropLeadingColon d hnd
  have hhead_e : (dropLeadingColon d).head? ≠ some ':' :=
    head?_dropLeadingColon d hnd
  have hnd_er : List.Chain' noTwoColons (dropLeadingColon d).reverse :=
    noDouble_reverse _ hnd_e
  have hform : stripEdgeColons d
      = (dropLeadingColon (dropLeadingColon d).reverse).reverse := rfl
  have hmem : ∀ x ∈ stripEdgeColons d, x ∈ d := by
    intro x hx
    rw [hform, List.mem_reverse] at hx
    have h2 := mem_dropLeadingColon _ x hx
    rw [List.mem_reverse] at h2
    exact mem_dropLeadingColon d x h2
  refine ⟨fun hx => hq (hmem '?' hx), fun x hx => hs x (hmem x hx), ?_, ?_, ?_⟩
  · rw [hform]
    exact noDouble_reverse _ (noDouble_dropLeadingColon _ hnd_er)
  · rw [hform, List.head?_reverse]
    apply getLast?_dropLeadingColon
    rw [List.getLast?_reverse]
    exact hhead_e
  · rw [hform, List.getLast?_reverse]
    exact head?_dropLeadingColon _ hnd_er

theorem cleanKey_normChars (l : List Char) : CleanKey (normChars l) := by
  apply cleanKey_stripEdge
  · exact noDouble_collapseColons _
  · intro hx
    exact coerceSeps_no_q _ (takeBeforeQuery_no_q l) (mem_collapseColons _ _ hx)
  · intro x hx
    exact coerceSeps_no_slash _ x (mem_collapseColons _ x hx)

theorem normChars_of_cleanKey (l : List Char) (h : CleanKey l) : normChars l = l := by
  obtain ⟨h1, h2, h3, h4, h5⟩ := h
  unfold normChars stripEdgeColons dropTrailingColon
  rw [takeBeforeQuery_of_no_q l h1, coerceSeps_of_clean l h2,
    collapseColons_of_noDouble l h3, dropLeadingColon_of_head l h4,
    dropLeadingColon_of_head l.reverse (by rw [List.head?_reverse]; exact h5),
    List.reverse_reverse]

/-- C9: key normalization is idempotent: for every input string `k`,
`normalizeKey(normalizeKey(k))` equals `normalizeKey(k)`, where
`normalizeKey` strips any `?`-suffixed query portion, coerces slash
separators to colons, collapses runs of colons, and trims leading/trailing
colons. -/
theorem normalizeKey_idempotent (k : String) :
    normalizeKey (normalizeKey k) = normalizeKey k := by
  unfold normalizeKey
  have hdata : (String.mk (normChars k.data)).data = normChars k.data := rfl
  rw [hdata, normChars_of_cleanKey _ (cleanKey_normChars k.data)]

/-! ## Store lemmas -/

theorem find?_append_of_none {α : Type} (l1 l2 : List α) (p : α → Bool)
    (h : ∀ x ∈ l1, ¬(p x = true)) : (l1 ++ l2).find? p = l2.find? p := by
  induction l1 with
  | nil => rfl
  | cons a rest ih =>
    rw [List.cons_append, List.find?_cons_of_neg _ (h a (List.mem_cons_self a rest))]
    exact ih (fun x hx => h x (List.mem_cons_of_mem a hx))

theorem find?_map_update : ∀ (data : List (String × String)) (k v : String),
    data.any (fun p => p.1 == k) = true →
    (data.map (fun p => if p.1 == k then (k, v) else p)).find? (fun p => p.1 == k)
      = some (k, v)
  | [], k, v => by simp
  | q :: rest, k, v => by
    intro h
    by_cases hq : (q.1 == k) = true
    · simp only [List.map_cons, if_pos hq]
      rw [List.find?_cons_of_pos _ (by simp)]
    · simp only [List.map_cons, if_neg hq]
      have hqf : (q.1 == k) = false := by rwa [Bool.not_eq_true] at hq
      simp only [List.find?, hqf]
      rw [List.any_cons, hqf, Bool.false_or] at h
      exact find?_map_update rest k v h

theorem storeGet_storeSet_self (st : Store) (k v : String) :
    storeGet (storeSet st k v) k = some v := by
  unfold storeGet storeSet
  by_cases h : st.data.any (fun p => p.1 == k) = true
  · rw [if_pos h]
    show ((st.data.map (fun p => if p.1 == k then (k, v) else p)).find?
      (fun p => p.1 == k)).map (·.2) = some v
    rw [find?_map_update st.data k v h]
    rfl
  · rw [if_neg h]
    show ((st.data ++ [(k, v)]).find? (fun p => p.1 == k)).map (·.2) = some v
    have hnone : ∀ x ∈ st.data, ¬((fun p : String × String => p.1 == k) x = true) :=
      fun x hx hpx => h (List.any_eq_true.mpr ⟨x, hx, hpx⟩)
    rw [find?_append_of_none st.data [(k, v)] _ hnone,
      List.find?_cons_of_pos _ (by simp)]
    rfl

/-! ## Overlay driver lemmas -/

theorem overlayGetItem_readthrough : ∀ (pre : List Store) (l : Store)
    (post : List Store) (K v : String),
    (∀ p ∈ pre, storeGet p K = none) → storeGet l K = some v →
    v ≠ OVERLAY_REMOVED → overlayGetItem (pre ++ l :: post) K = some v
  | [], l, post, K, v => fun hpre hget hne => by
    simp only [List.nil_append, overlayGetItem, hget, if_neg hne]
  | p :: pre, l, post, K, v => fun hpre hget hne => by
    have hp : storeGet p K = none := hpre p (List.mem_cons_self p _)
    simp only [List.cons_append, overlayGetItem, hp]
    exact overlayGetItem_readthrough pre l post K v
      (fun q hq => hpre q (List.mem_cons_of_mem p hq)) hget hne

theorem overlayGetItem_all_none : ∀ (layers : List Store) (K : String),
    (∀ l ∈ layers, storeGet l K = none) → overlayGetItem layers K = none
  | [], K => fun _ => rfl
  | l :: rest, K => fun hall => by
    have hl : storeGet l K = none := hall l (List.mem_cons_self l rest)
    simp only [overlayGetItem, hl]
    exact overlayGetItem_all_none rest K
      (fun q hq => hall q (List.mem_cons_of_mem l hq))

/-- C4: for every overlay driver with layer list `layers[0..n-1]` and every
key `K`: if the top layer holds a non-null value for `K`, `get(K)` returns
that value, except that the tombstone sentinel makes `get(K)` return null and
stop; if every layer above some lower layer holds null and that lower layer
holds a non-tombstone value, `get(K)` returns the lower layer's value; if all
layers hold null, `get(K)` returns null. -/
theorem overlay_get_layer_semantics (layers : List Store) (K : String) :
    (∀ top rest v, layers = top :: rest → storeGet top K = some v →
        overlayGetItem layers K = if v = OVERLAY_REMOVED then none else some v)
  ∧ (∀ pre l post v, layers = pre ++ l :: post →
        (∀ p ∈ pre, storeGet p K = none) → storeGet l K = some v →
        v ≠ OVERLAY_REMOVED → overlayGetItem layers K = some v)
  ∧ ((∀ l ∈ layers, storeGet l K = none) → overlayGetItem layers K = none) := by
  refine ⟨?_, ?_, ?_⟩
  · rintro top rest v rfl hget
    simp only [overlayGetItem, hget]
  · rintro pre l post v rfl hpre hget hne
    exact overlayGetItem_readthrough pre l post K v hpre hget hne
  · exact overlayGetItem_all_none layers K

/-- Witness for C4: with an empty top layer over a bottom layer holding
`cfg:port ↦ 8080`, the overlay read falls through to the bottom value. -/
theorem overlay_get_layer_semantics_witness :
    overlayGetItem [emptyStore, storeSet emptyStore "cfg:port" "8080"] "cfg:port"
      = some "8080" :=
  (overlay_get_layer_semantics
      [emptyStore, storeSet emptyStore "cfg:port" "8080"] "cfg:port").2.1
    [emptyStore] (storeSet emptyStore "cfg:port" "8080") [] "8080"
    rfl (by decide) (by decide) (by decide)

/-- C5: for every overlay driver and every key `k`, `remove(k)` writes the
tombstone sentinel to layer 0 only and leaves every lower layer unchanged;
afterwards `get(k)` returns null and `listKeys` does not contain `k`, while
the lower layers still hold their previous value for `k`. -/
theorem overlay_remove_writes_tombstone_top_only (top : Store) (rest : List Store)
    (k base : String) :
    overlayRemoveItem (top :: rest) k = storeSet top k OVERLAY_REMOVED :: rest
  ∧ overlayGetItem (overlayRemoveItem (top :: rest) k) k = none
  ∧ k ∉ overlayGetKeys (overlayRemoveItem (top :: rest) k) base
  ∧ (overlayRemoveItem (top :: rest) k).tail = rest := by
  refine ⟨rfl, ?_, ?_, rfl⟩
  · have h := storeGet_storeSet_self top k OVERLAY_REMOVED
    simp [overlayRemoveItem, overlayGetItem, h]
  · intro hmem
    simp only [overlayGetKeys] at hmem
    rw [List.mem_filter] at hmem
    have hpred := hmem.2
    simp only [overlayRemoveItem, List.head?_cons,
      storeGet_storeSet_self top k OVERLAY_REMOVED] at hpred
    simp at hpred

/-- Witness for C5 (the spec's literal scenario): after removing `cfg:port`,
the overlay read yields null even though the bottom layer still holds it. -/
theorem overlay_remove_writes_tombstone_top_only_witness :
    overlayGetItem (overlayRemoveItem
      [emptyStore, storeSet emptyStore "cfg:port" "8080"] "cfg:port") "cfg:port"
      = none :=
  (overlay_remove_writes_tombstone_top_only emptyStore
    [storeSet emptyStore "cfg:port" "8080"] "cfg:port" "").2.1

/-- C6 counterexample: the overlay `setItem` performs no validation, so a set
whose value is the reserved tombstone string is *not* rejected — it writes
the sentinel into layer 0 (where it then acts as a remove). -/
theorem overlay_set_tombstone_not_rejected :
    overlaySetItem [emptyStore] "cfg:port" OVERLAY_REMOVED
      = [storeSet emptyStore "cfg:port" OVERLAY_REMOVED]
    ∧ storeGet ((overlaySetItem [emptyStore] "cfg:port" OVERLAY_REMOVED).headD
        emptyStore) "cfg:port" = some OVERLAY_REMOVED := by
  exact ⟨rfl, by decide⟩

/-- C6 amended: `set(k, v)` forwards the value to layer 0 unconditionally —
the tombstone sentinel is storable, and storing it behaves like a remove
(a subsequent `get(k)` returns null). -/
theorem overlay_set_writes_top_unconditionally (top : Store) (rest : List Store)
    (k v : String) :
    overlaySetItem (top :: rest) k v = storeSet top k v :: rest
  ∧ overlayGetItem (overlaySetItem (top :: rest) k OVERLAY_REMOVED) k = none := by
  refine ⟨rfl, ?_⟩
  have h := storeGet_storeSet_self top k OVERLAY_REMOVED
  simp [overlaySetItem, overlayGetItem, h]

/-! ## Filesystem driver traversal guard -/

/-- C7: for every key presented to the filesystem driver, the driver raises
an InvalidKey error (and performs no file access) iff the key contains the
substring `..:` or ends with `..`; in particular `get("../etc/passwd")`
through the storage engine (whose normalization turns it into
`..:etc:passwd`) fails with InvalidKey, while `s1:te..st..js` is accepted. -/
theorem fs_traversal_defense (key : String) :
    (fsResolveRel key = none ↔
      (containsSub "..:".data key.data = true ∨ endsWithCL "..".data key.data = true))
  ∧ normalizeKey "../etc/passwd" = "..:etc:passwd"
  ∧ fsResolveRel (normalizeKey "../etc/passwd") = none
  ∧ (fsResolveRel "s1:te..st..js").isSome = true := by
  refine ⟨?_, by decide, by decide, by decide⟩
  unfold fsResolveRel pathTraverseTest
  by_cases h : (containsSub "..:".data key.data || endsWithCL "..".data key.data) = true
  · rw [if_pos h]
    simp only [Bool.or_eq_true] at h
    exact ⟨fun _ => h, fun _ => rfl⟩
  · rw [if_neg h]
    simp only [Bool.or_eq_true] at h
    exact ⟨fun hc => absurd hc (by simp), fun hab => absurd hab h⟩

/-- Witness for C7: a key starting with a traversal sequence is rejected. -/
theorem fs_traversal_defense_witness : fsResolveRel "..:x" = none :=
  (fs_traversal_defense "..:x").1.mpr (Or.inl (by decide))

/-! ## Watch dispatch -/

/-- C2 (evaluation at the failing input): with two registered subscribers and
a driver mounted at base `mnt:` reporting `("update", "data:foo")`, the
engine dispatches to each subscriber exactly once, but with the
mount-relative key unchanged — the mount base is never prepended (the `watch`
helper of `src/storage.ts` hands `onChange` to the driver verbatim and
ignores its `base` argument). -/
theorem watch_dispatch_misses_mount_base :
    driverReportDispatch "mnt:" true [0, 1] WatchEvent.update "data:foo"
      = [(0, WatchEvent.update, "data:foo"), (1, WatchEvent.update, "data:foo")]
    ∧ ("data:foo" : String) ≠ "mnt:" ++ "data:foo" := by
  exact ⟨by decide, by decide⟩

/-! ## getKeys depth filtering -/

/-- C3 (evaluation at the failing input): with the root driver holding
exactly `a`, `a:b`, `a:b:c`, `a:b:c:d` (each written via set),
`getKeys("", { maxDepth: 1 })` returns `["a"]` and not `["a", "a:b"]`: the
call site hands the base string to the `depth` parameter of the 2-parameter
`filterKeyByDepth` and drops `maxDepth`, while the `filterKeyByDepth` of
`src/utils.ts` itself would have kept `a:b` at depth 1. -/
theorem getKeys_depth_filter_receives_base :
    getKeysE c3State "" (some 1) = ["a"]
    ∧ filterKeyByDepth "a:b" (some 1) = true
    ∧ filterKeyByDepthAsCalled "a:b" "" = false := by
  exact ⟨by decide, by decide, by decide⟩

/-! ## HTTP GET on a leaf key -/

/-- C8 counterexample: the claim says the X-TTL and
`Cache-Control: max-age=<ttl>` headers are set whenever the metadata
provides a ttl, but `setMetaHeaders` guards with JS truthiness
(`if (meta.ttl)`), so a provided ttl of 0 sets neither header: a GET of a
present value with metadata `{ mtime: 5, ttl: 0 }` answers 200 with both
ttl headers absent. -/
theorem http_get_leaf_ttl_zero_drops_headers :
    handleGetLeaf (fun s : String => s) false (some "x")
        (StorageMetaR.mk (some 5) (some 0))
      = GetLeafResult.ok (RespBody.text "x")
          (RespHeaders.mk (some 5) none none)
    ∧ (setMetaHeaders (StorageMetaR.mk (some 5) (some 0))).xttl = none
    ∧ (setMetaHeaders (StorageMetaR.mk (some 5) (some 0))).cacheControl = none := by
  exact ⟨by decide, rfl, rfl⟩

/-- C8 amended: for every HTTP GET request on a leaf key, the server
responds 404 iff the stored value is null; otherwise it returns the value
(raw bytes when Accept is `application/octet-stream`, else the stringified
text), setting the Last-Modified header from the metadata's mtime, and the
X-TTL plus `Cache-Control: max-age=<ttl>` headers when the metadata provides
a *non-zero* ttl — when the ttl is 0 or absent, neither ttl header is set
(the code's truthiness guard treats a zero ttl like an absent one). -/
theorem http_get_leaf_semantics_amended {α : Type} (stringifyF : α → String)
    (isRaw : Bool) (value : Option α) (meta : StorageMetaR) :
    (handleGetLeaf stringifyF isRaw value meta = GetLeafResult.notFound ↔ value = none)
  ∧ (∀ v, value = some v →
      handleGetLeaf stringifyF isRaw value meta
        = GetLeafResult.ok
            (if isRaw then RespBody.raw v else RespBody.text (stringifyF v))
            (setMetaHeaders meta))
  ∧ (setMetaHeaders meta).lastModified = meta.mtime
  ∧ (∀ t, meta.ttl = some t → t ≠ 0 →
      (setMetaHeaders meta).xttl = some (toString t)
      ∧ (setMetaHeaders meta).cacheControl = some ("max-age=" ++ toString t))
  ∧ (meta.ttl = some 0 ∨ meta.ttl = none →
      (setMetaHeaders meta).xttl = none
      ∧ (setMetaHeaders meta).cacheControl = none) := by
  refine ⟨?_, ?_, rfl, ?_, ?_⟩
  · cases value with
    | none => simp [handleGetLeaf]
    | some v => simp [handleGetLeaf]
  · rintro v rfl
    rfl
  · intro t ht hne
    unfold setMetaHeaders
    rw [ht]
    simp [hne]
  · intro h
    unfold setMetaHeaders
    rcases h with h0 | hn
    · rw [h0]
      simp
    · rw [hn]
      simp

/-- Witness for C8's amended statement: a text GET of a present value with
mtime 5 and ttl 60 gets both ttl headers; with ttl 0 it gets neither. -/
theorem http_get_leaf_semantics_amended_witness :
    handleGetLeaf (fun s : String => s) false (some "x")
        (StorageMetaR.mk (some 5) (some 60))
      = GetLeafResult.ok (RespBody.text "x")
          (RespHeaders.mk (some 5) (some "60") (some "max-age=60"))
    ∧ (setMetaHeaders (StorageMetaR.mk (some 5) (some 60))).xttl = some "60"
    ∧ (setMetaHeaders (StorageMetaR.mk (some 5) (some 0))).cacheControl = none := by
  refine ⟨?_, ?_, ?_⟩
  · have h := (http_get_leaf_semantics_amended (fun s : String => s) false (some "x")
      (StorageMetaR.mk (some 5) (some 60))).2.1 "x" rfl
    exact h.trans (by decide)
  · exact ((http_get_leaf_semantics_amended (fun s : String => s) false (some "x")
      (StorageMetaR.mk (some 5) (some 60))).2.2.2.1 60 rfl (by decide)).1
  · exact ((http_get_leaf_semantics_amended (fun s : String => s) false (some "x")
      (StorageMetaR.mk (some 5) (some 0))).2.2.2.2 (Or.inl rfl)).2

/-! ## Mount-table lemmas -/

theorem jsStartsWith_empty (k : String) : jsStartsWith k "" = true := rfl

theorem string_data_eq {a b : String} (h : a.data = b.data) : a = b := by
  cases a
  cases b
  exact congrArg String.mk h

theorem insertByLen_perm (x : String × Store) (l : List (String × Store)) :
    (insertByLen x l).Perm (x :: l) := by
  induction l with
  | nil => exact List.Perm.refl _
  | cons y ys ih =>
    simp only [insertByLen]
    by_cases h : y.1.data.length ≤ x.1.data.length
    · rw [if_pos h]
    · rw [if_neg h]
      exact (ih.cons y).trans (List.Perm.swap x y ys)

theorem insertByLen_pairwise (x : String × Store) (l : List (String × Store))
    (h : List.Pairwise MountDesc l) :
    List.Pairwise MountDesc (insertByLen x l) := by
  induction l with
  | nil => exact List.pairwise_singleton _ _
  | cons y ys ih =>
    rcases List.pairwise_cons.mp h with ⟨hy, hys⟩
    simp only [insertByLen]
    by_cases hc : y.1.data.length ≤ x.1.data.length
    · rw [if_pos hc]
      refine List.pairwise_cons.mpr ⟨?_, h⟩
      intro z hz
      rcases List.mem_cons.mp hz with rfl | hz2
      · exact hc
      · exact le_trans (hy z hz2) hc
    · rw [if_neg hc]
      refine List.pairwise_cons.mpr ⟨?_, ih hys⟩
      intro z hz
      have hz2 := (insertByLen_perm x ys).mem_iff.mp hz
      rcases List.mem_cons.mp hz2 with rfl | hz3
      · exact le_of_not_le hc
      · exact hy z hz3

theorem jsSortDesc_perm (l : List (String × Store)) : (jsSortDesc l).Perm l := by
  induction l with
  | nil => exact List.Perm.refl _
  | cons x xs ih =>
    simp only [jsSortDesc]
    exact (insertByLen_perm x (jsSortDesc xs)).trans (ih.cons x)

theorem jsSortDesc_pairwise (l : List (String × Store)) :
    List.Pairwise MountDesc (jsSortDesc l) := by
  induction l with
  | nil => exact List.Pairwise.nil
  | cons x xs ih =>
    simp only [jsSortDesc]
    exact insertByLen_pairwise x _ ih

theorem find?_pairwise_longest (k : String) (l : List (String × Store)) :
    List.Pairwise MountDesc l →
    ∀ m, l.find? (fun e => jsStartsWith k e.1) = some m →
      m ∈ l ∧ jsStartsWith k m.1 = true ∧
      ∀ e ∈ l, jsStartsWith k e.1 = true → e.1.data.length ≤ m.1.data.length := by
  induction l with
  | nil =>
    intro _ m hm
    simp at hm
  | cons a rest ih =>
    intro hp m hm
    rcases List.pairwise_cons.mp hp with ⟨ha, hrest⟩
    by_cases hpa : jsStartsWith k a.1 = true
    · simp only [List.find?, hpa] at hm
      injection hm with hm
      subst hm
      refine ⟨List.mem_cons_self a rest, hpa, ?_⟩
      intro e he hpe
      rcases List.mem_cons.mp he with rfl | he2
      · exact le_refl _
      · exact ha e he2
    · have hpaf : jsStartsWith k a.1 = false := by rwa [Bool.not_eq_true] at hpa
      simp only [List.find?, hpaf] at hm
      obtain ⟨hmem, hpm, hmax⟩ := ih hrest m hm
      refine ⟨List.mem_cons_of_mem a hmem, hpm, ?_⟩
      intro e he hpe
      rcases List.mem_cons.mp he with rfl | he2
      · exact absurd hpe hpa
      · exact hmax e he2 hpe

theorem find?_isSome_of_root (k : String) (l : List (String × Store))
    (h : "" ∈ l.map Prod.fst) :
    (l.find? (fun e => jsStartsWith k e.1)).isSome = true := by
  rcases List.mem_map.mp h with ⟨e, he, hfst⟩
  apply List.find?_isSome.mpr
  refine ⟨e, he, ?_⟩
  rw [hfst]
  exact jsStartsWith_empty k

theorem mem_eraseP_of_neg {α : Type} {p : α → Bool} {x : α} :
    ∀ {l : List α}, x ∈ l → p x = false → x ∈ l.eraseP p := by
  intro l
  induction l with
  | nil =>
    intro hx _
    exact absurd hx (List.not_mem_nil x)
  | cons a rest ih =>
    intro hx hpx
    by_cases hpa : p a = true
    · rw [List.eraseP_cons_of_pos hpa]
      rcases List.mem_cons.mp hx with rfl | h2
      · rw [hpx] at hpa
        exact absurd hpa (by simp)
      · exact h2
    · rw [List.eraseP_cons_of_neg hpa]
      rcases List.mem_cons.mp hx with rfl | h2
      · exact List.mem_cons_self x _
      · exact List.mem_cons_of_mem a (ih h2 hpx)

theorem not_mem_eraseP_of_unique {α : Type} {p : α → Bool} {x : α} :
    ∀ {l : List α}, l.Nodup → p x = true → (∀ y ∈ l, p y = true → y = x) →
      x ∉ l.eraseP p := by
  intro l
  induction l with
  | nil =>
    intro _ _ _ h
    simp at h
  | cons a rest ih =>
    intro hnd hpx huniq hmem
    rcases List.nodup_cons.mp hnd with ⟨hna, hnrest⟩
    by_cases hpa : p a = true
    · rw [List.eraseP_cons_of_pos hpa] at hmem
      have hax : a = x := huniq a (List.mem_cons_self a rest) hpa
      rw [hax] at hna
      exact hna hmem
    · rw [List.eraseP_cons_of_neg hpa] at hmem
      rcases List.mem_cons.mp hmem with rfl | h2
      · exact hpa hpx
      · exact ih hnrest hpx
          (fun y hy hpy => huniq y (List.mem_cons_of_mem a hy) hpy) h2

theorem isPrefixOfCL_length_eq : ∀ (a b k : List Char),
    isPrefixOfCL a k = true → isPrefixOfCL b k = true → a.length = b.length → a = b
  | [], [], _ => fun _ _ _ => rfl
  | [], _ :: _, _ => fun _ _ h => by simp at h
  | _ :: _, [], _ => fun _ _ h => by simp at h
  | a :: as, b :: bs, [] => fun h1 _ _ => by simp [isPrefixOfCL] at h1
  | a :: as, b :: bs, c :: ks => fun h1 h2 hl => by
    simp only [isPrefixOfCL, Bool.and_eq_true, beq_iff_eq] at h1 h2
    have hrec := isPrefixOfCL_length_eq as bs ks h1.2 h2.2 (by simpa using hl)
    rw [h1.1, h2.1, hrec]

theorem assocUpdate_entry_fst (b : String) (f : Store → Store) (e : String × Store) :
    (if (e.1 == b) = true then (e.1, f e.2) else e).1 = e.1 := by
  by_cases hc : (e.1 == b) = true
  · rw [if_pos hc]
  · rw [if_neg hc]

theorem assocUpdate_map_fst (s : List (String × Store)) (b : String)
    (f : Store → Store) :
    (assocUpdate s b f).map Prod.fst = s.map Prod.fst := by
  unfold assocUpdate
  rw [List.map_map]
  apply List.map_congr_left
  intro e he
  exact assocUpdate_entry_fst b f e

theorem assocUpdate_pairwise : ∀ (s : List (String × Store)) (b : String)
    (f : Store → Store), List.Pairwise MountDesc s →
    List.Pairwise MountDesc (assocUpdate s b f)
  | [], b, f => fun _ => List.Pairwise.nil
  | e :: rest, b, f => fun h => by
    rcases List.pairwise_cons.mp h with ⟨he, hrest⟩
    unfold assocUpdate
    rw [List.map_cons]
    refine List.pairwise_cons.mpr ⟨?_, assocUpdate_pairwise rest b f hrest⟩
    intro z hz
    rcases List.mem_map.mp hz with ⟨w, hw, hgw⟩
    unfold MountDesc
    rw [← hgw, assocUpdate_entry_fst b f w, assocUpdate_entry_fst b f e]
    exact he w hw

theorem reachable_mountInv {s : List (String × Store)} (h : ReachableE s) :
    MountInv s ∧ "" ∈ s.map Prod.fst := by
  induction h with
  | init d =>
    exact ⟨⟨List.pairwise_singleton _ _, by simp⟩, by simp⟩
  | @mount s base d hr hne hnotin ih =>
    obtain ⟨⟨hpw, hnd⟩, hroot⟩ := ih
    have hperm : (jsSortDesc (s ++ [(normalizeBaseKey base, d)])).Perm
        (s ++ [(normalizeBaseKey base, d)]) := jsSortDesc_perm _
    have hpermf := hperm.map Prod.fst
    refine ⟨⟨jsSortDesc_pairwise _, ?_⟩, ?_⟩
    · apply hpermf.nodup_iff.mpr
      rw [List.map_append]
      refine List.Nodup.append hnd (by simp) ?_
      intro a ha1 ha2
      simp only [List.map_cons, List.map_nil, List.mem_singleton] at ha2
      rw [ha2] at ha1
      exact hnotin ha1
    · apply hpermf.mem_iff.mpr
      rw [List.map_append]
      exact List.mem_append_left _ hroot
  | @unmount s base hr hne ih =>
    obtain ⟨⟨hpw, hnd⟩, hroot⟩ := ih
    have hsub : (unmountE s base).Sublist s := List.eraseP_sublist s
    refine ⟨⟨hpw.sublist hsub, hnd.sublist (hsub.map Prod.fst)⟩, ?_⟩
    rcases List.mem_map.mp hroot with ⟨e, he, hfst⟩
    have hpe : (e.1 == normalizeBaseKey base) = false := by
      rw [hfst]
      exact beq_eq_false_iff_ne.mpr (fun hcontra => hne hcontra.symm)
    exact List.mem_map.mpr ⟨e, mem_eraseP_of_neg he hpe, hfst⟩
  | @set s key value hr ih =>
    obtain ⟨⟨hpw, hnd⟩, hroot⟩ := ih
    unfold setItemE
    refine ⟨⟨assocUpdate_pairwise s _ _ hpw, ?_⟩, ?_⟩
    · rw [assocUpdate_map_fst]
      exact hnd
    · rw [assocUpdate_map_fst]
      exact hroot

/-- C1: for every normalized key `k` and every reachable mount table (which
always contains the root base `""`), the engine's route operation
(`getMount`) returns the mount whose base is the longest element of the
mount table that is a prefix of `k`, and the mountpoint list is sorted by
descending base length after every mount operation, so the first prefix
match found by linear scan is the longest one. -/
theorem getMount_selects_longest_base (s : List (String × Store))
    (h : ReachableE s) (k : String) :
    List.Pairwise MountDesc s
    ∧ "" ∈ s.map Prod.fst
    ∧ ((getMountE s k).base, (getMountE s k).driver) ∈ s
    ∧ jsStartsWith k (getMountE s k).base = true
    ∧ (∀ b ∈ s.map Prod.fst, jsStartsWith k b = true →
        b.data.length ≤ (getMountE s k).base.data.length) := by
  obtain ⟨⟨hpw, hnd⟩, hroot⟩ := reachable_mountInv h
  have hsome := find?_isSome_of_root k s hroot
  cases hfind : s.find? (fun e => jsStartsWith k e.1) with
  | none =>
    rw [hfind] at hsome
    simp at hsome
  | some m =>
    obtain ⟨hmem, hpm, hmax⟩ := find?_pairwise_longest k s hpw m hfind
    have hbase : getMountE s k = ⟨m.1, jsSliceFrom k m.1.data.length, m.2⟩ := by
      unfold getMountE
      rw [hfind]
    refine ⟨hpw, hroot, ?_, ?_, ?_⟩
    · rw [hbase]
      exact hmem
    · rw [hbase]
      exact hpm
    · intro b hb hpb
      rw [hbase]
      rcases List.mem_map.mp hb with ⟨e, he, hfst⟩
      rw [← hfst]
      refine hmax e he ?_
      rw [hfst]
      exact hpb

/-- Witness for C1: on the reachable table obtained by mounting `a` over the
root, the key `a:x` is routed to a base that is one of its prefixes. -/
theorem getMount_selects_longest_base_witness :
    jsStartsWith "a:x" (getMountE [("a:", emptyStore), ("", emptyStore)] "a:x").base
      = true := by
  have h0 : ReachableE [("", emptyStore)] := ReachableE.init emptyStore
  have h1 := ReachableE.mount "a" emptyStore h0 (by decide) (by decide)
  have he : mountE [("", emptyStore)] "a" emptyStore
      = [("a:", emptyStore), ("", emptyStore)] := by decide
  rw [he] at h1
  exact (getMount_selects_longest_base _ h1 "a:x").2.2.2.1

theorem nodup_fst_eq {s : List (String × Store)} (hnd : (s.map Prod.fst).Nodup)
    {a b : String × Store} (ha : a ∈ s) (hb : b ∈ s) (hfst : a.1 = b.1) : a = b :=
  List.inj_on_of_nodup_map hnd ha hb hfst

theorem getMountE_ext (s u : List (String × Store)) (k : String)
    (hmem : ∀ m : String × Store, m ∈ s ↔ m ∈ u)
    (hs : List.Pairwise MountDesc s) (hu : List.Pairwise MountDesc u)
    (hnd : (s.map Prod.fst).Nodup) :
    getMountE s k = getMountE u k := by
  cases hfs : s.find? (fun e => jsStartsWith k e.1) with
  | none =>
    cases hfu : u.find? (fun e => jsStartsWith k e.1) with
    | none =>
      have hs0 : s.find? (fun m => m.1 == "") = none := by
        apply List.find?_eq_none.mpr
        intro e he hbe
        apply List.find?_eq_none.mp hfs e he
        rw [beq_iff_eq] at hbe
        rw [hbe]
        exact jsStartsWith_empty k
      have hu0 : u.find? (fun m => m.1 == "") = none := by
        apply List.find?_eq_none.mpr
        intro e he hbe
        apply List.find?_eq_none.mp hfu e he
        rw [beq_iff_eq] at hbe
        rw [hbe]
        exact jsStartsWith_empty k
      unfold getMountE
      rw [hfs, hfu, hs0, hu0]
    | some m2 =>
      have hm2 := List.mem_of_find?_eq_some hfu
      have hp2 := List.find?_some hfu
      exact absurd hp2 (List.find?_eq_none.mp hfs m2 ((hmem m2).mpr hm2))
  | some m =>
    obtain ⟨hms, hpms, hmaxs⟩ := find?_pairwise_longest k s hs m hfs
    cases hfu : u.find? (fun e => jsStartsWith k e.1) with
    | none =>
      exact absurd hpms (List.find?_eq_none.mp hfu m ((hmem m).mp hms))
    | some m2 =>
      obtain ⟨hmu, hpmu, hmaxu⟩ := find?_pairwise_longest k u hu m2 hfu
      have h1 : m.1.data.length ≤ m2.1.data.length := hmaxu m ((hmem m).mp hms) hpms
      have h2 : m2.1.data.length ≤ m.1.data.length :=
        hmaxs m2 ((hmem m2).mpr hmu) hpmu
      have hfst : m.1 = m2.1 :=
        string_data_eq (isPrefixOfCL_length_eq m.1.data m2.1.data k.data hpms hpmu
          (le_antisymm h1 h2))
      have heq : m = m2 := nodup_fst_eq hnd hms ((hmem m2).mpr hmu) hfst
      unfold getMountE
      rw [hfs, hfu, heq]

/-- C10 counterexample: mounting the fresh base `a` (normalized `a:`) while
`a:b:` is already mounted and currently serves the key `a:b:c` — the new
base is a normalized prefix of the key, yet after the mount the route still
selects `a:b:` and the value still comes from the old driver, not from the
freshly mounted (empty) one. -/
theorem mount_prefix_does_not_always_capture :
    jsStartsWith "a:b:c" (normalizeBaseKey "a") = true
    ∧ getItemE c10State "a:b:c" = some "v"
    ∧ (getMountE (mountE c10State "a" emptyStore) "a:b:c").base = "a:b:"
    ∧ normalizeBaseKey "a" ≠ "a:b:"
    ∧ getItemE (mountE c10State "a" emptyStore) "a:b:c" = some "v" := by
  exact ⟨by decide, by decide, by decide, by decide, by decide⟩

/-- C10 amended: for every storage whose current mount holds a value for key
`k`, and every `mount(b, d)` with the normalized `b` a prefix of `k`
*strictly longer than the base of `k`'s current mount*, after mounting all
operations on `k` are served by `d` while every previously mounted
`(base, driver)` entry survives unchanged (mount copies and deletes
nothing); after `unmount(b)`, `k` is routed exactly as before and returns
its original value. -/
theorem mount_shadowing_without_migration (s : List (String × Store))
    (k b : String) (d : Store) (v : String)
    (hpw : List.Pairwise MountDesc s)
    (hnd : (s.map Prod.fst).Nodup)
    (hk : normalizeKey k = k)
    (hfresh : normalizeBaseKey b ∉ s.map Prod.fst)
    (hpref : jsStartsWith k (normalizeBaseKey b) = true)
    (hlonger : (getMountE s k).base.data.length < (normalizeBaseKey b).data.length)
    (hval : storeGet (getMountE s k).driver (getMountE s k).relativeKey = some v) :
    (getMountE (mountE s b d) k).base = normalizeBaseKey b
    ∧ (getMountE (mountE s b d) k).driver = d
    ∧ (∀ m ∈ s, m ∈ mountE s b d)
    ∧ getMountE (unmountE (mountE s b d) b) k = getMountE s k
    ∧ getItemE (unmountE (mountE s b d) b) k = some v := by
  have hpermt : (mountE s b d).Perm (s ++ [(normalizeBaseKey b, d)]) :=
    jsSortDesc_perm _
  have htpw : List.Pairwise MountDesc (mountE s b d) := jsSortDesc_pairwise _
  have hmemt : ∀ m : String × Store,
      m ∈ mountE s b d ↔ (m ∈ s ∨ m = (normalizeBaseKey b, d)) := by
    intro m
    rw [hpermt.mem_iff, List.mem_append, List.mem_singleton]
  have holdmax : ∀ e ∈ s, jsStartsWith k e.1 = true →
      e.1.data.length ≤ (getMountE s k).base.data.length := by
    cases hfs : s.find? (fun e => jsStartsWith k e.1) with
    | none =>
      intro e he hpe
      exact absurd hpe (List.find?_eq_none.mp hfs e he)
    | some m =>
      obtain ⟨_, _, hmax⟩ := find?_pairwise_longest k s hpw m hfs
      intro e he hpe
      have hbase : (getMountE s k).base = m.1 := by
        unfold getMountE
        rw [hfs]
      rw [hbase]
      exact hmax e he hpe
  have hroute : getMountE (mountE s b d) k
      = ⟨normalizeBaseKey b, jsSliceFrom k (normalizeBaseKey b).data.length, d⟩ := by
    cases hft : (mountE s b d).find? (fun e => jsStartsWith k e.1) with
    | none =>
      exact absurd hpref (List.find?_eq_none.mp hft (normalizeBaseKey b, d)
        ((hmemt _).mpr (Or.inr rfl)))
    | some m =>
      obtain ⟨hmt, hpmt, hmaxt⟩ := find?_pairwise_longest k _ htpw m hft
      have hm : m = (normalizeBaseKey b, d) := by
        rcases (hmemt m).mp hmt with hin | heq
        · exfalso
          have h1 := holdmax m hin hpmt
          have h2 : (normalizeBaseKey b).data.length ≤ m.1.data.length :=
            hmaxt (normalizeBaseKey b, d) ((hmemt _).mpr (Or.inr rfl)) hpref
          omega
        · exact heq
      unfold getMountE
      rw [hft, hm]
  have hxnotin : (normalizeBaseKey b, d) ∉ s := by
    intro hx
    exact hfresh (List.mem_map.mpr ⟨_, hx, rfl⟩)
  have hsnodup : s.Nodup := List.Nodup.of_map Prod.fst hnd
  have htnodup : (mountE s b d).Nodup := by
    apply hpermt.nodup_iff.mpr
    refine List.Nodup.append hsnodup (by simp) ?_
    intro a ha1 ha2
    rw [List.mem_singleton] at ha2
    rw [ha2] at ha1
    exact hxnotin ha1
  have hmemu : ∀ m : String × Store, m ∈ unmountE (mountE s b d) b ↔ m ∈ s := by
    intro m
    constructor
    · intro hm
      have hmt : m ∈ mountE s b d := (List.eraseP_sublist _).subset hm
      rcases (hmemt m).mp hmt with hin | heq
      · exact hin
      · exfalso
        have hpx : ((normalizeBaseKey b, d).1 == normalizeBaseKey b) = true := by simp
        have huniq : ∀ y ∈ mountE s b d, (y.1 == normalizeBaseKey b) = true →
            y = (normalizeBaseKey b, d) := by
          intro y hy hpy
          rcases (hmemt y).mp hy with hin2 | heq2
          · rw [beq_iff_eq] at hpy
            exact absurd (List.mem_map.mpr ⟨y, hin2, hpy⟩) hfresh
          · exact heq2
        exact not_mem_eraseP_of_unique htnodup hpx huniq (heq ▸ hm)
    · intro hm
      have hpm : (m.1 == normalizeBaseKey b) = false := by
        apply beq_eq_false_iff_ne.mpr
        intro hcontra
        exact hfresh (List.mem_map.mpr ⟨m, hm, hcontra⟩)
      exact mem_eraseP_of_neg ((hmemt m).mpr (Or.inl hm)) hpm
  have hupw : List.Pairwise MountDesc (unmountE (mountE s b d) b) :=
    htpw.sublist (List.eraseP_sublist _)
  have hext : getMountE s k = getMountE (unmountE (mountE s b d) b) k :=
    getMountE_ext s _ k (fun m => (hmemu m).symm) hpw hupw hnd
  refine ⟨?_, ?_, ?_, ?_, ?_⟩
  · rw [hroute]
  · rw [hroute]
  · intro m hm
    exact (hmemt m).mpr (Or.inl hm)
  · exact hext.symm
  · unfold getItemE
    rw [hk, ← hext]
    exact hval

/-- Witness for C10's amended statement: the root driver holds `m:x ↦ v`;
mounting `m` and unmounting it again leaves `getItem("m:x")` serving the
original value from the root driver. -/
theorem mount_shadowing_without_migration_witness :
    getItemE (unmountE (mountE [("", storeSet emptyStore "m:x" "v")] "m" emptyStore)
      "m") "m:x" = some "v" := by
  have h := mount_shadowing_without_migration
    [("", storeSet emptyStore "m:x" "v")] "m:x" "m" emptyStore "v"
    (List.pairwise_singleton _ _) (by decide) (by decide) (by decide)
    (by decide) (by decide) (by decide)
  exact h.2.2.2.2
